import Mathlib

set_option maxRecDepth 4000

/-!
Verification of the rating-prediction evaluation pipeline of the notebook
`2-unsupervised-algorithms-in-machine-learning/module-4/review/Part 2.ipynb`.

The pipeline: sample 500 user ids and 500 movie ids from the training table
(seeded), filter the training table to interactions involving both, build a
dense user-item rating matrix indexed by first-seen id-to-index maps, run an
external NMF factorization (treated as a black box, so the reconstructed
matrix is an arbitrary parameter here), and evaluate RMSE on the test rows
whose ids appear in the sampled index maps.

Shallow embedding: tables are lists of rating rows; ratings are rationals;
the dense matrix is a total function on indices (unwritten cells are 0,
matching `np.zeros`); pandas/sklearn library calls that the script relies on
(`Series.sample`, `mean_squared_error` on an empty input) are modelled from
the spec's description of their behavior, as noted on each definition.
-/

namespace NMFPipeline

/-- A rating record: one row of a rating table, as in `train.csv`/`test.csv`
with columns `uID`, `mID`, `rating`. -/
structure RatingRow where
  uID : Nat
  mID : Nat
  rating : ℚ
deriving DecidableEq

/-- Error taxonomy of the spec: the two fatal conditions the claims mention. -/
inductive PipeError where
  | insufficientData
  | emptyEvaluationSet
deriving DecidableEq

/-- First-seen deduplication with an accumulator of already-seen elements:
`uniquesAux seen l` keeps the first occurrence of each element of `l` not in
`seen`, in order of first appearance. -/
def uniquesAux (seen : List Nat) : List Nat → List Nat
  | [] => []
  | x :: xs => if x ∈ seen then uniquesAux seen xs else x :: uniquesAux (x :: seen) xs

/-- The distinct elements of a list in first-seen order: the embedding of
pandas `Series.drop_duplicates()` / `Series.unique()`, both of which keep the
first occurrence of each value in row order. -/
def uniques (l : List Nat) : List Nat := uniquesAux [] l

/-- Modelled from the spec: pandas `Series.sample(n, random_state=seed)`, a
deterministic without-replacement draw of `n` elements from the population,
fully determined by the population, `n` and the seed; it fails (the spec's
`InsufficientDataError`) when the population has fewer than `n` elements and
never truncates. The draw is modelled as a seed-determined rotation of the
population followed by taking the first `n` elements, which is deterministic
and without replacement; the library's actual pseudo-random order is not part
of the repository. -/
def sampleDraw (population : List Nat) (n : Nat) (seed : Nat) : Except PipeError (List Nat) :=
  if population.length < n then
    .error .insufficientData
  else
    .ok ((population.rotate seed).take n)

/-- The script's `selected_users = train_data['uID'].drop_duplicates().sample(500, random_state=42)`. -/
def selectedUsers (train : List RatingRow) : Except PipeError (List Nat) :=
  sampleDraw (uniques (train.map (fun r => r.uID))) 500 42

/-- The script's `selected_movies = train_data['mID'].drop_duplicates().sample(500, random_state=42)`. -/
def selectedMovies (train : List RatingRow) : Except PipeError (List Nat) :=
  sampleDraw (uniques (train.map (fun r => r.mID))) 500 42

/-- The Sampler stage: both draws, in the script's order (users first). -/
def sampler (train : List RatingRow) : Except PipeError (List Nat × List Nat) := do
  let su ← selectedUsers train
  let sm ← selectedMovies train
  pure (su, sm)

/-- The script's `subset = train_data[(train_data['uID'].isin(selected_users)) & (train_data['mID'].isin(selected_movies))]`. -/
def subsetOf (train : List RatingRow) (su sm : List Nat) : List RatingRow :=
  train.filter (fun r => decide (r.uID ∈ su) && decide (r.mID ∈ sm))

/-- The script's `u_index = subset['uID'].unique()`. -/
def uIndex (subset : List RatingRow) : List Nat :=
  uniques (subset.map (fun r => r.uID))

/-- The script's `m_index = subset['mID'].unique()`. -/
def mIndex (subset : List RatingRow) : List Nat :=
  uniques (subset.map (fun r => r.mID))

/-- The script's `u_map = {u: i for i, u in enumerate(u_index)}`: each id of
`u_index` is sent to its position there. -/
def uMap (subset : List RatingRow) (u : Nat) : Nat :=
  (uIndex subset).indexOf u

/-- The script's `m_map = {m: j for j, m in enumerate(m_index)}`. -/
def mMap (subset : List RatingRow) (m : Nat) : Nat :=
  (mIndex subset).indexOf m

/-- The matrix-fill loop over an arbitrary pair of index maps: starting from
`np.zeros` (every cell 0), each row writes its rating at
`(umap row.uID, mmap row.mID)`, later rows overwriting earlier ones. The
matrix is a total function on index pairs; cells never written stay 0. -/
def fillMatrix (umap mmap : Nat → Nat) (rows : List RatingRow) : Nat → Nat → ℚ :=
  rows.foldl
    (fun mat r => fun i j =>
      if i = umap r.uID ∧ j = mmap r.mID then r.rating else mat i j)
    (fun _ _ => 0)

/-- The script's `matrix`: the fill loop run with the subset's own maps. -/
def matrixOf (subset : List RatingRow) : Nat → Nat → ℚ :=
  fillMatrix (uMap subset) (mMap subset) subset

/-- The script's `np.zeros((len(u_index), len(m_index)))` shape: the matrix
dimensions are the distinct-id counts of the filtered subset. -/
def matrixShape (subset : List RatingRow) : Nat × Nat :=
  ((uIndex subset).length, (mIndex subset).length)

/-- The rating of the last row of `rows` carrying the pair `(u, m)`, `0` when
none does: the value last-write-wins leaves in the matrix cell. -/
def lastRating (rows : List RatingRow) (u m : Nat) : ℚ :=
  match (rows.filter (fun r => decide (r.uID = u) && decide (r.mID = m))).getLast? with
  | some r => r.rating
  | none => 0

/-- The script's `eval_set = test_data[(test_data['uID'].isin(u_index)) & (test_data['mID'].isin(m_index))]`. -/
def evalSetOf (test : List RatingRow) (uidx midx : List Nat) : List RatingRow :=
  test.filter (fun r => decide (r.uID ∈ uidx) && decide (r.mID ∈ midx))

/-- The script's `actual` list: the loop appends `row.rating` for each row of
`eval_set` in order. -/
def actualList (evalSet : List RatingRow) : List ℚ :=
  evalSet.map (fun r => r.rating)

/-- The script's `predicted` list: the loop appends
`reconstructed[u_map[row.uID], m_map[row.mID]]` for each row of `eval_set` in
order; `recon` is the reconstructed matrix, a black-box parameter. -/
def predictedList (evalSet : List RatingRow) (recon : Nat → Nat → ℚ)
    (umap mmap : Nat → Nat) : List ℚ :=
  evalSet.map (fun r => recon (umap r.uID) (mmap r.mID))

/-- Modelled from the spec: sklearn `mean_squared_error(actual, predicted)`,
the mean of the squared differences of the paired entries; on an empty input
the library fails rather than divide by zero (the spec's
`EmptyEvaluationSetError`), so the empty case is an error. -/
def meanSquaredError (ys ps : List ℚ) : Except PipeError ℚ :=
  if ys.length = 0 then
    .error .emptyEvaluationSet
  else
    .ok ((((ys.zip ps).map (fun ap => (ap.1 - ap.2) ^ 2)).sum) / (ys.length : ℚ))

/-- The Evaluator stage up to the final square root: filter the test table by
the sampled index maps, collect the actual/predicted lists, and take their
mean squared error (the script's `mean_squared_error(actual, predicted)`; the
printed score is its square root). -/
def evaluatorMSE (test : List RatingRow) (uidx midx : List Nat)
    (recon : Nat → Nat → ℚ) : Except PipeError ℚ :=
  let es := evalSetOf test uidx midx
  meanSquaredError (actualList es)
    (predictedList es recon (fun u => uidx.indexOf u) (fun m => midx.indexOf m))

/-- The matrix dimensions the whole front of the pipeline produces on a
training table: sample both id sets, filter, and report
`(len(u_index), len(m_index))`; an error of the Sampler propagates. -/
def pipelineDims (train : List RatingRow) : Except PipeError (Nat × Nat) := do
  let (su, sm) ← sampler train
  pure (matrixShape (subsetOf train su sm))

/-- A concrete training table on which the pipeline's matrix is smaller than
500×500: users 0..499 each rate the movie with their own id, and user 0 also
rates movie 500, so the table has 500 distinct users and 501 distinct
movies. -/
def bigTrain : List RatingRow :=
  (List.range 500).map (fun i => ⟨i, i, 3⟩) ++ [⟨0, 500, 3⟩]

/-- The Evaluator's output as the spec words it, for refinement comparison
with the code path (which collects two parallel lists first): the mean over
the retained rows of the squared difference between the actual rating and the
reconstructed-matrix entry at the row's index pair. -/
def specMeanSqOverRetained (retained : List RatingRow) (recon : Nat → Nat → ℚ)
    (umap mmap : Nat → Nat) : ℚ :=
  ((retained.map (fun r => (r.rating - recon (umap r.uID) (mmap r.mID)) ^ 2)).sum) /
    (retained.length : ℚ)

/-! ## Lemmas about first-seen deduplication -/

theorem mem_uniquesAux {seen l : List Nat} {a : Nat} :
    a ∈ uniquesAux seen l ↔ a ∈ l ∧ a ∉ seen := by
  induction l generalizing seen with
  | nil => simp [uniquesAux]
  | cons x xs ih =>
    by_cases hx : x ∈ seen
    · rw [uniquesAux, if_pos hx, ih]
      constructor
      · exact fun ⟨h1, h2⟩ => ⟨List.mem_cons_of_mem _ h1, h2⟩
      · rintro ⟨h1, h2⟩
        rcases List.mem_cons.mp h1 with rfl | h1'
        · exact absurd hx h2
        · exact ⟨h1', h2⟩
    · rw [uniquesAux, if_neg hx]
      constructor
      · intro hmem
        rcases List.mem_cons.mp hmem with rfl | hmem'
        · exact ⟨List.mem_cons_self a xs, hx⟩
        · obtain ⟨h1, h2⟩ := ih.mp hmem'
          exact ⟨List.mem_cons_of_mem _ h1, fun hs => h2 (List.mem_cons_of_mem _ hs)⟩
      · rintro ⟨h1, h2⟩
        rcases List.mem_cons.mp h1 with rfl | h1'
        · exact List.mem_cons_self a _
        · by_cases hax : a = x
          · subst hax
            exact List.mem_cons_self a _
          · refine List.mem_cons_of_mem _ (ih.mpr ⟨h1', ?_⟩)
            intro hs
            rcases List.mem_cons.mp hs with hh | hh
            · exact hax hh
            · exact h2 hh

theorem mem_uniques {l : List Nat} {a : Nat} : a ∈ uniques l ↔ a ∈ l := by
  rw [uniques, mem_uniquesAux]
  simp

theorem nodup_uniquesAux (seen l : List Nat) : (uniquesAux seen l).Nodup := by
  induction l generalizing seen with
  | nil => simp [uniquesAux]
  | cons x xs ih =>
    by_cases hx : x ∈ seen
    · rw [uniquesAux, if_pos hx]
      exact ih seen
    · rw [uniquesAux, if_neg hx]
      refine List.nodup_cons.mpr ⟨?_, ih (x :: seen)⟩
      intro hmem
      exact (mem_uniquesAux.mp hmem).2 (List.mem_cons_self x seen)

theorem nodup_uniques (l : List Nat) : (uniques l).Nodup := nodup_uniquesAux [] l

theorem uniquesAux_eq_self {seen l : List Nat} (hl : l.Nodup)
    (hd : ∀ x ∈ l, x ∉ seen) : uniquesAux seen l = l := by
  induction l generalizing seen with
  | nil => rfl
  | cons x xs ih =>
    rw [uniquesAux, if_neg (hd x (List.mem_cons_self x xs))]
    congr 1
    refine ih (List.nodup_cons.mp hl).2 ?_
    intro y hy hmem
    rcases List.mem_cons.mp hmem with rfl | hmem'
    · exact (List.nodup_cons.mp hl).1 hy
    · exact hd y (List.mem_cons_of_mem _ hy) hmem'

theorem uniques_eq_self {l : List Nat} (hl : l.Nodup) : uniques l = l :=
  uniquesAux_eq_self hl (by simp)

theorem uniquesAux_append_singleton (seen l : List Nat) (x : Nat) :
    uniquesAux seen (l ++ [x]) =
      uniquesAux seen l ++ (if x ∈ seen ∨ x ∈ l then [] else [x]) := by
  induction l generalizing seen with
  | nil =>
    by_cases hx : x ∈ seen <;> simp [uniquesAux, hx]
  | cons y ys ih =>
    by_cases hy : y ∈ seen
    · have hcond : (x ∈ seen ∨ x ∈ y :: ys) ↔ (x ∈ seen ∨ x ∈ ys) := by
        simp only [List.mem_cons]
        constructor
        · rintro (h | rfl | h)
          · exact Or.inl h
          · exact Or.inl hy
          · exact Or.inr h
        · rintro (h | h)
          · exact Or.inl h
          · exact Or.inr (Or.inr h)
      rw [List.cons_append, uniquesAux, if_pos hy, uniquesAux, if_pos hy, ih,
        if_congr hcond rfl rfl]
    · have hcond : (x ∈ y :: seen ∨ x ∈ ys) ↔ (x ∈ seen ∨ x ∈ y :: ys) := by
        simp only [List.mem_cons]
        constructor
        · rintro ((rfl | h) | h)
          · exact Or.inr (Or.inl rfl)
          · exact Or.inl h
          · exact Or.inr (Or.inr h)
        · rintro (h | rfl | h)
          · exact Or.inl (Or.inr h)
          · exact Or.inl (Or.inl rfl)
          · exact Or.inr h
      rw [List.cons_append, uniquesAux, if_neg hy, uniquesAux, if_neg hy, ih,
        if_congr hcond rfl rfl, List.cons_append]

theorem uniques_append_mem {l : List Nat} {x : Nat} (hx : x ∈ l) :
    uniques (l ++ [x]) = uniques l := by
  rw [uniques, uniques, uniquesAux_append_singleton, if_pos (by simp [hx]),
    List.append_nil]

theorem uniques_append_not_mem {l : List Nat} {x : Nat} (hx : x ∉ l) :
    uniques (l ++ [x]) = uniques l ++ [x] := by
  rw [uniques, uniques, uniquesAux_append_singleton, if_neg (by simp [hx])]

/-! ## C1 and C3: the Sampler -/

/-- C1: for every training table and every fixed seed, the two
without-replacement draws of 500 user ids and 500 movie ids are fully
determined by the table and the seed, so any two runs with the same seed
return the same sampled user ids and the same sampled movie ids. -/
theorem sampler_deterministic (train : List RatingRow) (seed : Nat)
    (ru₁ ru₂ rm₁ rm₂ : Except PipeError (List Nat))
    (h1 : sampleDraw (uniques (train.map (fun r => r.uID))) 500 seed = ru₁)
    (h2 : sampleDraw (uniques (train.map (fun r => r.uID))) 500 seed = ru₂)
    (h3 : sampleDraw (uniques (train.map (fun r => r.mID))) 500 seed = rm₁)
    (h4 : sampleDraw (uniques (train.map (fun r => r.mID))) 500 seed = rm₂) :
    ru₁ = ru₂ ∧ rm₁ = rm₂ :=
  ⟨h1.symm.trans h2, h3.symm.trans h4⟩

/-- Witness for C1 at a concrete one-row table and seed 42. -/
theorem sampler_deterministic_witness :
    (Except.error PipeError.insufficientData : Except PipeError (List Nat)) =
        .error .insufficientData ∧
      (Except.error PipeError.insufficientData : Except PipeError (List Nat)) =
        .error .insufficientData :=
  sampler_deterministic [⟨1, 2, 3⟩] 42 _ _ _ _ rfl rfl rfl rfl

/-- C3: when the training table has fewer than 500 distinct user ids or fewer
than 500 distinct movie ids, the Sampler fails with the insufficient-data
error; it never truncates the draw. -/
theorem sampler_insufficient (train : List RatingRow)
    (h : (uniques (train.map (fun r => r.uID))).length < 500 ∨
         (uniques (train.map (fun r => r.mID))).length < 500) :
    sampler train = .error .insufficientData := by
  by_cases hu : (uniques (train.map (fun r => r.uID))).length < 500
  · have h1 : selectedUsers train = .error .insufficientData := by
      simp only [selectedUsers, sampleDraw]
      rw [if_pos hu]
    simp only [sampler, h1]
    rfl
  · have hm : (uniques (train.map (fun r => r.mID))).length < 500 := h.resolve_left hu
    have h1 : selectedUsers train =
        .ok (((uniques (train.map (fun r => r.uID))).rotate 42).take 500) := by
      simp only [selectedUsers, sampleDraw]
      rw [if_neg hu]
    have h2 : selectedMovies train = .error .insufficientData := by
      simp only [selectedMovies, sampleDraw]
      rw [if_pos hm]
    simp only [sampler, h1, h2]
    rfl

/-- Witness for C3 at a concrete one-row table: one distinct id of each kind
is fewer than 500, and the Sampler indeed errors. -/
theorem sampler_insufficient_witness :
    sampler [⟨1, 2, 3⟩] = .error .insufficientData :=
  sampler_insufficient [⟨1, 2, 3⟩] (Or.inl (by decide))

/-! ## C2 and C8: the Matrix Builder -/

theorem fillMatrix_append (umap mmap : Nat → Nat) (rows : List RatingRow)
    (r : RatingRow) (i j : Nat) :
    fillMatrix umap mmap (rows ++ [r]) i j =
      if i = umap r.uID ∧ j = mmap r.mID then r.rating
      else fillMatrix umap mmap rows i j := by
  simp [fillMatrix, List.foldl_append]

theorem fillMatrix_unwritten (umap mmap : Nat → Nat) (rows : List RatingRow)
    (i j : Nat) (h : ∀ r ∈ rows, ¬(i = umap r.uID ∧ j = mmap r.mID)) :
    fillMatrix umap mmap rows i j = 0 := by
  induction rows using List.reverseRecOn with
  | nil => rfl
  | append_singleton l r ih =>
    rw [fillMatrix_append, if_neg (h r (by simp))]
    exact ih fun s hs => h s (by simp [hs])

theorem fillMatrix_last_write (umap mmap : Nat → Nat) (rows : List RatingRow)
    (u m : Nat)
    (hu : ∀ r ∈ rows, umap r.uID = umap u → r.uID = u)
    (hm : ∀ r ∈ rows, mmap r.mID = mmap m → r.mID = m)
    (hex : ∃ r ∈ rows, r.uID = u ∧ r.mID = m) :
    fillMatrix umap mmap rows (umap u) (mmap m) = lastRating rows u m := by
  induction rows using List.reverseRecOn with
  | nil =>
    obtain ⟨r, hr, _⟩ := hex
    exact absurd hr (List.not_mem_nil r)
  | append_singleton l r ih =>
    rw [fillMatrix_append]
    by_cases hr : r.uID = u ∧ r.mID = m
    · rw [if_pos ⟨by rw [hr.1], by rw [hr.2]⟩]
      have hfil : List.filter (fun s => decide (s.uID = u) && decide (s.mID = m)) [r] = [r] := by
        simp [hr.1, hr.2]
      unfold lastRating
      rw [List.filter_append, hfil, List.getLast?_concat]
    · have hcond : ¬(umap u = umap r.uID ∧ mmap m = mmap r.mID) := by
        rintro ⟨h1, h2⟩
        exact hr ⟨hu r (by simp) h1.symm, hm r (by simp) h2.symm⟩
      rw [if_neg hcond]
      have hb : (decide (r.uID = u) && decide (r.mID = m)) = false := by
        by_cases h1 : r.uID = u
        · by_cases h2 : r.mID = m
          · exact absurd ⟨h1, h2⟩ hr
          · simp [h2]
        · simp [h1]
      have hfil : List.filter (fun s => decide (s.uID = u) && decide (s.mID = m)) [r] = [] := by
        simp [List.filter_cons, hb]
      have hlast : lastRating (l ++ [r]) u m = lastRating l u m := by
        unfold lastRating
        rw [List.filter_append, hfil, List.append_nil]
      rw [hlast]
      refine ih (fun s hs => hu s (by simp [hs])) (fun s hs => hm s (by simp [hs])) ?_
      obtain ⟨r0, hr0, hp⟩ := hex
      rcases List.mem_append.mp hr0 with h0 | h0
      · exact ⟨r0, h0, hp⟩
      · rw [List.mem_singleton.mp h0] at hp
        exact absurd hp hr

/-- Membership of a subset row's ids in the index lists. -/
theorem mem_uIndex_of_mem {subset : List RatingRow} {r : RatingRow}
    (hr : r ∈ subset) : r.uID ∈ uIndex subset :=
  mem_uniques.mpr (List.mem_map_of_mem _ hr)

theorem mem_mIndex_of_mem {subset : List RatingRow} {r : RatingRow}
    (hr : r ∈ subset) : r.mID ∈ mIndex subset :=
  mem_uniques.mpr (List.mem_map_of_mem _ hr)

/-- C2: after the Matrix Builder runs, the cell at the index pair of any
(user, movie) pair present in the subset holds the rating of the last subset
row carrying that pair (last-write-wins), and every cell no subset row writes
to holds 0. -/
theorem matrix_last_write_wins (subset : List RatingRow) :
    (∀ u m, (∃ r ∈ subset, r.uID = u ∧ r.mID = m) →
        matrixOf subset (uMap subset u) (mMap subset m) = lastRating subset u m) ∧
    (∀ i j, (∀ r ∈ subset, ¬(i = uMap subset r.uID ∧ j = mMap subset r.mID)) →
        matrixOf subset i j = 0) := by
  constructor
  · intro u m hex
    obtain ⟨r0, hr0, hp⟩ := hex
    have humem : u ∈ uIndex subset := hp.1 ▸ mem_uIndex_of_mem hr0
    have hmmem : m ∈ mIndex subset := hp.2 ▸ mem_mIndex_of_mem hr0
    refine fillMatrix_last_write _ _ _ _ _ ?_ ?_ ⟨r0, hr0, hp⟩
    · intro r hr heq
      exact (List.indexOf_inj (mem_uIndex_of_mem hr) humem).mp heq
    · intro r hr heq
      exact (List.indexOf_inj (mem_mIndex_of_mem hr) hmmem).mp heq
  · intro i j h
    exact fillMatrix_unwritten _ _ _ _ _ h

/-- C8: the id-to-index maps are bijections from the distinct ids of the
sampled training subset onto the row indices below U and the column indices
below M: every id occurring in the subset is in the corresponding index list,
the map is injective there, and every index below the length is hit. -/
theorem index_maps_bijective (subset : List RatingRow) :
    (∀ r ∈ subset, r.uID ∈ uIndex subset ∧ r.mID ∈ mIndex subset) ∧
    (∀ u ∈ uIndex subset, uMap subset u < (uIndex subset).length) ∧
    (∀ u ∈ uIndex subset, ∀ v ∈ uIndex subset,
      uMap subset u = uMap subset v → u = v) ∧
    (∀ i, i < (uIndex subset).length → ∃ u ∈ uIndex subset, uMap subset u = i) ∧
    (∀ m ∈ mIndex subset, mMap subset m < (mIndex subset).length) ∧
    (∀ m1 ∈ mIndex subset, ∀ m2 ∈ mIndex subset,
      mMap subset m1 = mMap subset m2 → m1 = m2) ∧
    (∀ j, j < (mIndex subset).length → ∃ m ∈ mIndex subset, mMap subset m = j) := by
  refine ⟨?_, ?_, ?_, ?_, ?_, ?_, ?_⟩
  · exact fun r hr => ⟨mem_uIndex_of_mem hr, mem_mIndex_of_mem hr⟩
  · exact fun u hu => List.indexOf_lt_length.mpr hu
  · exact fun u hu v hv heq => (List.indexOf_inj hu hv).mp heq
  · intro i hi
    exact ⟨(uIndex subset).get ⟨i, hi⟩, List.get_mem _ _ _,
      List.get_indexOf (nodup_uniques _) ⟨i, hi⟩⟩
  · exact fun m hm => List.indexOf_lt_length.mpr hm
  · exact fun m1 h1 m2 h2 heq => (List.indexOf_inj h1 h2).mp heq
  · intro j hj
    exact ⟨(mIndex subset).get ⟨j, hj⟩, List.get_mem _ _ _,
      List.get_indexOf (nodup_uniques _) ⟨j, hj⟩⟩

/-! ## C4, C5, C6, C7, C10: the Evaluator -/

/-- Partition count: the retained and the dropped rows together account for
the whole table. -/
theorem length_filter_partition (p : RatingRow → Bool) (l : List RatingRow) :
    (l.filter p).length + (l.filter (fun s => !(p s))).length = l.length := by
  induction l with
  | nil => rfl
  | cons x xs ih =>
    cases hx : p x <;> simp [List.filter_cons, hx] <;> omega

/-- C7: the Evaluator retains exactly the test rows whose user id and movie
id both appear in the sampled index lists; every other test row is silently
dropped, and retained plus dropped rows account for the whole test table, so
dropped rows contribute nothing to the evaluation. -/
theorem eval_set_retains_exactly (test : List RatingRow) (uidx midx : List Nat)
    (r : RatingRow) :
    (r ∈ evalSetOf test uidx midx ↔ r ∈ test ∧ r.uID ∈ uidx ∧ r.mID ∈ midx) ∧
    (evalSetOf test uidx midx).length +
        (test.filter (fun s => !(decide (s.uID ∈ uidx) && decide (s.mID ∈ midx)))).length =
      test.length := by
  constructor
  · simp [evalSetOf, List.mem_filter, and_assoc]
  · exact length_filter_partition _ test

/-- C10: for every test row retained by the membership filter the lookups of
the Evaluator all succeed: the row's user id is a key of the user map, its
movie id a key of the movie map, and the looked-up index pair lies within the
dimensions of the reconstructed matrix. -/
theorem retained_lookups_safe (test subset : List RatingRow) (r : RatingRow)
    (h : r ∈ evalSetOf test (uIndex subset) (mIndex subset)) :
    r.uID ∈ uIndex subset ∧ r.mID ∈ mIndex subset ∧
      uMap subset r.uID < (matrixShape subset).1 ∧
      mMap subset r.mID < (matrixShape subset).2 := by
  have h1 := List.mem_filter.mp h
  have h2 : r.uID ∈ uIndex subset ∧ r.mID ∈ mIndex subset := by
    have hb := h1.2
    simp only [Bool.and_eq_true, decide_eq_true_eq] at hb
    exact hb
  exact ⟨h2.1, h2.2, List.indexOf_lt_length.mpr h2.1, List.indexOf_lt_length.mpr h2.2⟩

/-- Witness for C10: a concrete retained row, its lookups in bounds. -/
theorem retained_lookups_safe_witness :
    (1 : Nat) ∈ uIndex [⟨1, 1, 5⟩] ∧ (1 : Nat) ∈ mIndex [⟨1, 1, 5⟩] ∧
      uMap [⟨1, 1, 5⟩] 1 < (matrixShape [⟨1, 1, 5⟩]).1 ∧
      mMap [⟨1, 1, 5⟩] 1 < (matrixShape [⟨1, 1, 5⟩]).2 :=
  retained_lookups_safe [⟨1, 1, 4⟩] [⟨1, 1, 5⟩] ⟨1, 1, 4⟩ (by decide)

/-- C4: when no test row passes the membership filter, the Evaluator fails
with the empty-evaluation-set error instead of computing a mean over zero
rows. -/
theorem evaluator_empty_error (test : List RatingRow) (uidx midx : List Nat)
    (recon : Nat → Nat → ℚ)
    (h : ∀ r ∈ test, ¬(r.uID ∈ uidx ∧ r.mID ∈ midx)) :
    evaluatorMSE test uidx midx recon = .error .emptyEvaluationSet := by
  have hnil : evalSetOf test uidx midx = [] := by
    rw [evalSetOf, List.filter_eq_nil_iff]
    intro r hr
    simp only [Bool.and_eq_true, decide_eq_true_eq]
    exact h r hr
  simp [evaluatorMSE, hnil, actualList, predictedList, meanSquaredError]

/-- Witness for C4: a concrete test table with no id in the index lists. -/
theorem evaluator_empty_error_witness :
    evaluatorMSE [⟨1, 1, 5⟩] [2] [3] (fun _ _ => 0) = .error .emptyEvaluationSet :=
  evaluator_empty_error [⟨1, 1, 5⟩] [2] [3] (fun _ _ => 0) (by decide)

/-- C5: on a non-empty retained set the Evaluator's score is the square root
of the mean of (actual − predicted)² taken over exactly the retained rows,
the predicted rating of a row being the reconstructed-matrix entry at the
row's index pair. -/
theorem evaluator_rmse_spec (test : List RatingRow) (uidx midx : List Nat)
    (recon : Nat → Nat → ℚ)
    (h : evalSetOf test uidx midx ≠ []) :
    ∃ q : ℚ, evaluatorMSE test uidx midx recon = .ok q ∧
      Real.sqrt (q : ℝ) =
        Real.sqrt ((specMeanSqOverRetained (evalSetOf test uidx midx) recon
          (fun u => uidx.indexOf u) (fun m => midx.indexOf m) : ℚ) : ℝ) := by
  refine ⟨specMeanSqOverRetained (evalSetOf test uidx midx) recon
    (fun u => uidx.indexOf u) (fun m => midx.indexOf m), ?_, rfl⟩
  have hne : (actualList (evalSetOf test uidx midx)).length ≠ 0 := by
    rw [actualList, List.length_map]
    exact fun h0 => h (List.length_eq_zero.mp h0)
  simp only [evaluatorMSE, meanSquaredError, if_neg hne]
  congr 1
  rw [actualList, predictedList, List.zip_map', List.map_map, List.length_map,
    specMeanSqOverRetained]
  rfl

/-- Witness for C5 at a one-row test table and a constant reconstruction. -/
theorem evaluator_rmse_spec_witness :
    ∃ q : ℚ, evaluatorMSE [⟨1, 1, 5⟩] [1] [1] (fun _ _ => 3) = .ok q ∧
      Real.sqrt (q : ℝ) =
        Real.sqrt ((specMeanSqOverRetained (evalSetOf [⟨1, 1, 5⟩] [1] [1]) (fun _ _ => 3)
          (fun u => [1].indexOf u) (fun m => [1].indexOf m) : ℚ) : ℝ) :=
  evaluator_rmse_spec [⟨1, 1, 5⟩] [1] [1] (fun _ _ => 3) (by decide)

/-- Sums of squared differences are nonnegative. -/
theorem sum_sq_nonneg (l : List (ℚ × ℚ)) :
    0 ≤ (l.map (fun ap => (ap.1 - ap.2) ^ 2)).sum := by
  induction l with
  | nil => simp
  | cons x xs ih =>
    simp only [List.map_cons, List.sum_cons]
    have hx : (0 : ℚ) ≤ (x.1 - x.2) ^ 2 := sq_nonneg _
    linarith

/-- A sum of squared differences vanishes exactly when every pair agrees. -/
theorem sum_sq_eq_zero_iff (l : List (ℚ × ℚ)) :
    (l.map (fun ap => (ap.1 - ap.2) ^ 2)).sum = 0 ↔ ∀ ap ∈ l, ap.2 = ap.1 := by
  induction l with
  | nil => simp
  | cons x xs ih =>
    simp only [List.map_cons, List.sum_cons, List.mem_cons]
    constructor
    · intro hsum0
      have h1 : (0 : ℚ) ≤ (x.1 - x.2) ^ 2 := sq_nonneg _
      have h2 := sum_sq_nonneg xs
      have hx : (x.1 - x.2) ^ 2 = 0 := by linarith
      have hs : (xs.map (fun ap => (ap.1 - ap.2) ^ 2)).sum = 0 := by linarith
      have hx2 : x.2 = x.1 := by
        have := (pow_eq_zero_iff (by norm_num : (2:Nat) ≠ 0)).mp hx
        linarith
      intro ap hap
      rcases hap with rfl | hap
      · exact hx2
      · exact ih.mp hs ap hap
    · intro hall
      have hx : x.2 = x.1 := hall x (Or.inl rfl)
      have hx0 : (x.1 - x.2) ^ 2 = 0 := by
        rw [hx]
        ring
      rw [hx0, zero_add]
      exact ih.mpr fun ap hap => hall ap (Or.inr hap)

/-- C6: for every non-empty aligned pair of actual/predicted lists, the RMSE
is nonnegative, and it is zero exactly when predicted equals actual in every
evaluated pair. -/
theorem rmse_nonneg_and_zero_iff (ys ps : List ℚ) (q : ℚ)
    (_hlen : ys.length = ps.length)
    (h : meanSquaredError ys ps = .ok q) :
    0 ≤ Real.sqrt (q : ℝ) ∧
      (Real.sqrt (q : ℝ) = 0 ↔ ∀ ap ∈ ys.zip ps, ap.2 = ap.1) := by
  have hne : ys.length ≠ 0 := by
    intro h0
    rw [meanSquaredError, if_pos h0] at h
    exact Except.noConfusion h
  have hq : q = ((ys.zip ps).map (fun ap => (ap.1 - ap.2) ^ 2)).sum / (ys.length : ℚ) := by
    rw [meanSquaredError, if_neg hne] at h
    exact (Except.ok.inj h).symm
  have hsumnn := sum_sq_nonneg (ys.zip ps)
  have hlpos : (0 : ℚ) < (ys.length : ℚ) := by
    exact_mod_cast Nat.pos_of_ne_zero hne
  have hqnn : 0 ≤ q := by
    rw [hq]
    exact div_nonneg hsumnn hlpos.le
  refine ⟨Real.sqrt_nonneg _, ?_⟩
  rw [Real.sqrt_eq_zero (by exact_mod_cast hqnn), Rat.cast_eq_zero, hq,
    div_eq_zero_iff]
  constructor
  · rintro (hs | hl)
    · exact (sum_sq_eq_zero_iff _).mp hs
    · exact absurd (by exact_mod_cast hl) hne
  · intro hall
    exact Or.inl ((sum_sq_eq_zero_iff _).mpr hall)

/-- Witness for C6 at one agreeing pair: the mean squared error is 0 and the
iff holds. -/
theorem rmse_nonneg_and_zero_iff_witness :
    0 ≤ Real.sqrt ((0 : ℚ) : ℝ) ∧
      (Real.sqrt ((0 : ℚ) : ℝ) = 0 ↔ ∀ ap ∈ [(3 : ℚ)].zip [(3 : ℚ)], ap.2 = ap.1) :=
  rmse_nonneg_and_zero_iff [3] [3] 0 rfl (by norm_num [meanSquaredError, List.zip_cons_cons])

/-! ## C9: the matrix dimensions -/

/-- Projecting an id back out of a constructed row list gives the id list. -/
theorem map_proj_id (f : Nat → RatingRow) (g : RatingRow → Nat)
    (h : ∀ i, g (f i) = i) (l : List Nat) : (l.map f).map g = l := by
  rw [List.map_map]
  have hfg : (g ∘ f) = fun a => a := funext h
  rw [hfg, List.map_id']

theorem bigTrain_map_uID :
    bigTrain.map (fun r => r.uID) = List.range 500 ++ [0] := by
  rw [bigTrain, List.map_append, map_proj_id _ _ (fun i => rfl)]
  rfl

theorem bigTrain_map_mID :
    bigTrain.map (fun r => r.mID) = List.range 500 ++ [500] := by
  rw [bigTrain, List.map_append, map_proj_id _ _ (fun i => rfl)]
  rfl

theorem uniques_bigTrain_uID :
    uniques (bigTrain.map (fun r => r.uID)) = List.range 500 := by
  rw [bigTrain_map_uID, uniques_append_mem (by simp),
    uniques_eq_self (List.nodup_range 500)]

theorem uniques_bigTrain_mID :
    uniques (bigTrain.map (fun r => r.mID)) = List.range 501 := by
  rw [bigTrain_map_mID, uniques_append_not_mem (by simp),
    uniques_eq_self (List.nodup_range 500), ← List.range_succ]

theorem selectedUsers_bigTrain :
    selectedUsers bigTrain = .ok ((List.range 500).rotate 42) := by
  rw [selectedUsers, uniques_bigTrain_uID]
  simp only [sampleDraw]
  rw [if_neg (by simp), List.take_of_length_le (by simp)]

theorem selectedMovies_bigTrain :
    selectedMovies bigTrain = .ok (((List.range 501).rotate 42).take 500) := by
  rw [selectedMovies, uniques_bigTrain_mID]
  simp only [sampleDraw]
  rw [if_neg (by simp)]

theorem rotate_range_501 :
    (List.range 501).rotate 42 = List.range' 42 459 ++ List.range' 0 42 := by
  have h : List.range' 0 42 ++ List.range' 42 459 = List.range' 0 501 := by
    have h0 := List.range'_append_1 0 42 459
    norm_num at h0
    exact h0
  have hsplit : List.range 501 = List.range' 0 42 ++ List.range' 42 459 := by
    rw [List.range_eq_range']
    exact h.symm
  rw [List.rotate_eq_drop_append_take (by simp), hsplit,
    List.drop_left' (by simp), List.take_left' (by simp)]

theorem sm_bigTrain_eq :
    ((List.range 501).rotate 42).take 500 = List.range' 42 459 ++ List.range' 0 41 := by
  rw [rotate_range_501]
  have h500 : (500 : Nat) = (List.range' 42 459).length + 41 := by simp
  rw [h500, List.take_append]
  congr 1

theorem mem_su_bigTrain {a : Nat} : a ∈ (List.range 500).rotate 42 ↔ a < 500 := by
  rw [List.mem_rotate, List.mem_range]

theorem mem_sm_bigTrain {a : Nat} :
    a ∈ ((List.range 501).rotate 42).take 500 ↔ (42 ≤ a ∧ a < 501) ∨ a < 41 := by
  rw [sm_bigTrain_eq, List.mem_append, List.mem_range'_1, List.mem_range'_1]
  omega

/-- Filtering the concrete table by any sampled id lists with the memberships
of the rotation draws keeps every row except the one of user 41. -/
theorem subset_bigTrain_eq (su sm : List Nat)
    (hsu : ∀ a, a ∈ su ↔ a < 500)
    (hsm : ∀ a, a ∈ sm ↔ (42 ≤ a ∧ a < 501) ∨ a < 41) :
    subsetOf bigTrain su sm =
      ((List.range' 0 41 ++ List.range' 42 458).map (fun i => (⟨i, i, 3⟩ : RatingRow))) ++
        [⟨0, 500, 3⟩] := by
  rw [subsetOf, bigTrain, List.filter_append, List.filter_map]
  congr 1
  · have hpq : ∀ x ∈ List.range 500,
        ((fun r : RatingRow => decide (r.uID ∈ su) && decide (r.mID ∈ sm)) ∘
          (fun i => (⟨i, i, 3⟩ : RatingRow))) x = decide (x ≠ 41) := by
      intro x hx
      rw [List.mem_range] at hx
      simp only [Function.comp]
      have h1 : x ∈ su := (hsu x).mpr hx
      by_cases h41 : x = 41
      · subst h41
        have h2 : (41 : Nat) ∉ sm := by
          rw [hsm]
          omega
        simp [h1, h2]
      · have h2 : x ∈ sm := by
          rw [hsm]
          omega
        simp [h1, h2, h41]
    rw [List.filter_congr hpq]
    have h1 := List.range'_append_1 0 41 1
    have h2 := List.range'_append_1 0 42 458
    norm_num at h1 h2
    have hsplit : List.range 500 = (List.range' 0 41 ++ [41]) ++ List.range' 42 458 := by
      rw [List.range_eq_range', ← h2, ← h1]
    have hfa : List.filter (fun x => decide (x ≠ 41)) (List.range' 0 41) = List.range' 0 41 := by
      refine List.filter_eq_self.mpr ?_
      intro a ha
      rw [List.mem_range'_1] at ha
      simp only [decide_eq_true_eq]
      omega
    have hfb : List.filter (fun x => decide (x ≠ 41)) [41] = [] := by
      simp
    have hfc : List.filter (fun x => decide (x ≠ 41)) (List.range' 42 458) = List.range' 42 458 := by
      refine List.filter_eq_self.mpr ?_
      intro a ha
      rw [List.mem_range'_1] at ha
      simp only [decide_eq_true_eq]
      omega
    rw [hsplit, List.filter_append, List.filter_append, hfa, hfb, hfc, List.append_nil]
  · have h0 : (0 : Nat) ∈ su := (hsu 0).mpr (by norm_num)
    have h500 : (500 : Nat) ∈ sm := by
      rw [hsm]
      omega
    simp [List.filter_cons, h0, h500]

/-- The whole front of the pipeline evaluated on the concrete table: the
matrix is 499×500, one user short of the sample size. -/
theorem pipelineDims_bigTrain : pipelineDims bigTrain = .ok (499, 500) := by
  have hsamp : sampler bigTrain =
      .ok ((List.range 500).rotate 42, ((List.range 501).rotate 42).take 500) := by
    simp only [sampler, selectedUsers_bigTrain, selectedMovies_bigTrain]
    rfl
  have hsub := subset_bigTrain_eq ((List.range 500).rotate 42)
    (((List.range 501).rotate 42).take 500)
    (fun a => mem_su_bigTrain) (fun a => mem_sm_bigTrain)
  have hnodup : (List.range' 0 41 ++ List.range' 42 458).Nodup := by
    rw [List.nodup_append]
    refine ⟨List.nodup_range' _ _, List.nodup_range' _ _, ?_⟩
    intro a ha hb
    rw [List.mem_range'_1] at ha hb
    omega
  have hmapu : (((List.range' 0 41 ++ List.range' 42 458).map
        (fun i => (⟨i, i, 3⟩ : RatingRow))) ++ [(⟨0, 500, 3⟩ : RatingRow)]).map (fun r => r.uID) =
      (List.range' 0 41 ++ List.range' 42 458) ++ [0] := by
    rw [List.map_append, map_proj_id _ _ (fun i => rfl)]
    rfl
  have hmapm : (((List.range' 0 41 ++ List.range' 42 458).map
        (fun i => (⟨i, i, 3⟩ : RatingRow))) ++ [(⟨0, 500, 3⟩ : RatingRow)]).map (fun r => r.mID) =
      (List.range' 0 41 ++ List.range' 42 458) ++ [500] := by
    rw [List.map_append, map_proj_id _ _ (fun i => rfl)]
    rfl
  have hu : uIndex (subsetOf bigTrain ((List.range 500).rotate 42)
      (((List.range 501).rotate 42).take 500)) =
      List.range' 0 41 ++ List.range' 42 458 := by
    rw [uIndex, hsub, hmapu, uniques_append_mem ?_, uniques_eq_self hnodup]
    rw [List.mem_append, List.mem_range'_1, List.mem_range'_1]
    omega
  have hm : mIndex (subsetOf bigTrain ((List.range 500).rotate 42)
      (((List.range 501).rotate 42).take 500)) =
      (List.range' 0 41 ++ List.range' 42 458) ++ [500] := by
    rw [mIndex, hsub, hmapm, uniques_append_not_mem ?_, uniques_eq_self hnodup]
    rw [List.mem_append, List.mem_range'_1, List.mem_range'_1]
    omega
  have hpd : pipelineDims bigTrain = pure (matrixShape (subsetOf bigTrain
      ((List.range 500).rotate 42) (((List.range 501).rotate 42).take 500))) := by
    simp only [pipelineDims, hsamp]
    rfl
  rw [hpd, matrixShape, hu, hm]
  simp only [List.length_append, List.length_range', List.length_singleton]
  rfl

/-- C9: the matrix dimensions U and M are the counts of distinct user ids and
distinct movie ids actually appearing in the filtered training subset, and
each can be strictly smaller than the 500 sampled ids: on a concrete table
with 500 distinct users and 501 distinct movies the pipeline yields a 499×500
matrix, not 500×500. -/
theorem matrix_dims_subset_counts :
    (∀ subset : List RatingRow,
      matrixShape subset =
        ((uniques (subset.map (fun r => r.uID))).length,
         (uniques (subset.map (fun r => r.mID))).length)) ∧
    ∃ train U M, pipelineDims train = .ok (U, M) ∧ U < 500 :=
  ⟨fun _ => rfl, bigTrain, 499, 500, pipelineDims_bigTrain, by norm_num⟩

end NMFPipeline
